import Mathlib

/-!
Verification of `scripts/split_tasks.py`, a tool that splits a markdown
task-tracking document (`900_tasks.md`) into a pending-tasks document and an
archive document.

Shallow embedding: a Python `str` line is modelled as `List Char`; a document
is a `List Line` (the result of `content.split("\n")`).  Python's
`str.strip()` / `str.lstrip()` (whitespace removal) is modelled with
`Char.isWhitespace`.  All functions are executable and structurally recursive
(`process_section`, whose Python `while` loop advances by whole task blocks,
is driven by a fuel argument bounded by the list length, which is proved
sufficient).
-/

/-- A document line: the character sequence of one Python string. -/
abbrev Line := List Char

/-- Leading-whitespace removal, Python `str.lstrip()`. -/
def lstrip (l : Line) : Line := l.dropWhile Char.isWhitespace

/-- Trailing-whitespace removal, Python `str.rstrip()`. -/
def rstrip (l : Line) : Line := (l.reverse.dropWhile Char.isWhitespace).reverse

/-- Both-sides whitespace removal, Python `str.strip()`. -/
def strip (l : Line) : Line := rstrip (lstrip l)

/-- The completed-task marker `- [x]`. -/
def xMark : Line := "- [x]".data

/-- The pending-task marker `- [ ]`. -/
def oMark : Line := "- [ ]".data

/-- The second-level heading marker `## `. -/
def h2Mark : Line := "## ".data

/-- The first-level heading marker `# `. -/
def h1Mark : Line := "# ".data

/-- `is_task_line` from the source: returns `(is_task, is_completed)`. -/
def is_task_line (line : Line) : Bool × Bool :=
  let stripped := strip line
  if xMark.isPrefixOf stripped then (true, true)
  else if oMark.isPrefixOf stripped then (true, false)
  else (false, false)

/-- `get_indent` from the source: `len(line) - len(line.lstrip())`. -/
def get_indent (line : Line) : Nat := line.length - (lstrip line).length

/-- A line is blank iff stripping whitespace yields the empty string
(`line.strip() == ""`). -/
def isBlankLine (l : Line) : Bool := (strip l).isEmpty

/-- The inner `while` loop of `process_section`: starting below a task line of
indentation `task_indent`, collect the detail lines (blank lines, and lines
indented strictly deeper than the task line); return the collected detail
lines together with the remaining lines (the cursor position `j`). -/
def collectBlock (task_indent : Nat) : List Line → List Line × List Line
  | [] => ([], [])
  | next_line :: rest =>
    if isBlankLine next_line then
      ((collectBlock task_indent rest).1.cons next_line,
        (collectBlock task_indent rest).2)
    else if get_indent next_line > task_indent then
      ((collectBlock task_indent rest).1.cons next_line,
        (collectBlock task_indent rest).2)
    else
      ([], next_line :: rest)

/-- Fuel-driven body of `process_section`; the fuel bounds the number of
iterations of the outer `while` loop (each iteration consumes at least one
line, so `lines.length` fuel suffices). -/
def psAux (header : Line) : Nat → List Line → List Line × List Line × Bool
  | _, [] => ([], [], false)
  | 0, _ :: _ => ([], [], false)
  | fuel + 1, line :: rest =>
    if (is_task_line line).1 then
      let blk := (collectBlock (get_indent line) rest).1
      let rem := (collectBlock (get_indent line) rest).2
      let r := psAux header fuel rem
      if (is_task_line line).2 then
        (r.1, (line :: blk) ++ r.2.1, r.2.2)
      else
        ((line :: blk) ++ r.1, r.2.1, true)
    else
      let r := psAux header fuel rest
      (line :: r.1, line :: r.2.1, r.2.2)

/-- `process_section` from the source: walk the section body, route each task
block wholesale to the pending or the archived bucket, copy every non-task
line into both buckets; returns `(pending_lines, archived_lines, has_pending)`.
(The Python function also tracks a `has_completed` flag that it never uses or
returns; it is omitted.)  The `header` parameter is accepted, and ignored,
exactly as in the source. -/
def process_section (header : Line) (lines : List Line) :
    List Line × List Line × Bool :=
  psAux header lines.length lines

/-- The `clean_empty_lines` loop with its `prev_empty` flag made explicit. -/
def cleanAux : List Line → Bool → List Line
  | [], _ => []
  | line :: ls, prev_empty =>
    if isBlankLine line && prev_empty then cleanAux ls prev_empty
    else line :: cleanAux ls (isBlankLine line)

/-- `clean_empty_lines` from the source: drop every blank line that
immediately follows another blank line. -/
def clean_empty_lines (lines : List Line) : List Line := cleanAux lines false

/-- The fixed preamble of the archive output (`archived_output` initial
value in `main`). -/
def archived_output_init : List Line :=
  ["# 完了済みタスクアーカイブ".data,
   "".data,
   "> このファイルは `docs/900_tasks.md` から移動した完了済みタスクの履歴です。".data,
   "".data]

/-- The fixed preamble of the pending output (`pending_output` initial
value in `main`). -/
def pending_output_init : List Line :=
  ["# タスク分解・進捗管理".data,
   "".data,
   "> 完了済みタスクは `docs/901_tasks_archived.md` を参照".data,
   "".data]

/-- Flushing one section in `main`: if a current header exists, run
`process_section` and append the header plus the chosen bucket to exactly one
of the two output buffers. -/
def flushSection (hdr : Line) (body : List Line) (pout aout : List Line) :
    List Line × List Line :=
  if hdr.isEmpty then (pout, aout)
  else
    let r := process_section hdr body
    if r.2.2 then (pout ++ hdr :: r.1, aout)
    else (pout, aout ++ hdr :: r.2.1)

/-- The section-splitting loop of `main`: `hdr` is `current_header`, `cur` is
`current_lines`, `pout`/`aout` are the two output buffers.  A `## ` line
flushes the previous section and starts a new one, a `# ` line is skipped,
any other line is appended to the current body; the final section is flushed
at end of input. -/
def mainLoop : List Line → Line → List Line → List Line → List Line →
    List Line × List Line
  | [], hdr, cur, pout, aout => flushSection hdr cur pout aout
  | l :: rest, hdr, cur, pout, aout =>
    if h2Mark.isPrefixOf l then
      let r := flushSection hdr cur pout aout
      mainLoop rest l [] r.1 r.2
    else if h1Mark.isPrefixOf l then
      mainLoop rest hdr cur pout aout
    else
      mainLoop rest hdr (cur ++ [l]) pout aout

/-- The two output buffers of `main` just before `clean_empty_lines`. -/
def buffers (input : List Line) : List Line × List Line :=
  mainLoop input [] [] pending_output_init archived_output_init

/-- The whole transform of `main` (file I/O stripped): from the line list of
the source document to the line lists of the pending output and the archive
output. -/
def transform (input : List Line) : List Line × List Line :=
  (clean_empty_lines (buffers input).1, clean_empty_lines (buffers input).2)

/-! ### Specification-side derived notions -/

/-- A line whose stripped form begins with the pending marker `- [ ]`. -/
def pendingMarker (l : Line) : Bool :=
  (is_task_line l).1 && !(is_task_line l).2

/-- A line whose stripped form begins with the completed marker `- [x]`. -/
def completedMarker (l : Line) : Bool := (is_task_line l).2

/-- Detail-line test used by the block collector: a detail line of a task
with indentation `k` is blank or indented strictly deeper than `k`. -/
def isDetail (k : Nat) (x : Line) : Bool :=
  isBlankLine x || decide (get_indent x > k)

/-- Fuel-driven scanner returning the marker lines that head the top-level
task blocks of a line list (the same block decomposition that
`process_section` performs). -/
def scanHeadsAux : Nat → List Line → List Line
  | _, [] => []
  | 0, _ :: _ => []
  | fuel + 1, l :: rest =>
    if (is_task_line l).1 then
      l :: scanHeadsAux fuel (rest.dropWhile (isDetail (get_indent l)))
    else
      scanHeadsAux fuel rest

/-- The marker lines heading the top-level task blocks of a line list. -/
def scanHeads (ls : List Line) : List Line := scanHeadsAux ls.length ls

/-- Checks that a line list has no two consecutive blank lines. -/
def noTwoBlank : List Line → Bool
  | [] => true
  | [_] => true
  | a :: b :: t => !(isBlankLine a && isBlankLine b) && noTwoBlank (b :: t)

/-- The section decomposition computed by the loop of `main`: the list of
`(header, body)` pairs, in order.  Lines before the first `## ` heading
belong to no section; `# ` lines are dropped. -/
def sectionsAux : List Line → Line → List Line → List (Line × List Line)
  | [], hdr, cur => if hdr.isEmpty then [] else [(hdr, cur)]
  | l :: rest, hdr, cur =>
    if h2Mark.isPrefixOf l then
      if hdr.isEmpty then sectionsAux rest l []
      else (hdr, cur) :: sectionsAux rest l []
    else if h1Mark.isPrefixOf l then sectionsAux rest hdr cur
    else sectionsAux rest hdr (cur ++ [l])

/-- The sections of a document. -/
def sections (input : List Line) : List (Line × List Line) :=
  sectionsAux input [] []

/-- The contributions of a section list to the two output buffers: each
section contributes its header plus its chosen bucket to exactly one side,
chosen by `has_pending`. -/
def routed : List (Line × List Line) → List Line × List Line
  | [] => ([], [])
  | (h, b) :: t =>
    let r := process_section h b
    let rt := routed t
    if r.2.2 then (h :: r.1 ++ rt.1, rt.2)
    else (rt.1, h :: r.2.1 ++ rt.2)

/-- Number of lines of a list whose stripped form begins with `- [x]`. -/
def countCompleted (ls : List Line) : Nat :=
  (ls.filter (fun l => xMark.isPrefixOf (strip l))).length

/-- Number of lines of a list whose stripped form begins with `- [ ]`. -/
def countPending (ls : List Line) : Nat :=
  (ls.filter (fun l => oMark.isPrefixOf (strip l))).length

/-! ### Basic lemmas -/

theorem xMark_eq : xMark = ['-', ' ', '[', 'x', ']'] := rfl

theorem oMark_eq : oMark = ['-', ' ', '[', ' ', ']'] := rfl

theorem h2Mark_eq : h2Mark = ['#', '#', ' '] := rfl

theorem h1Mark_eq : h1Mark = ['#', ' '] := rfl

theorem dropWhile_append_one {α : Type} (p : α → Bool) (xs : List α) (c : α)
    (hc : p c = false) :
    (xs ++ [c]).dropWhile p =
      if (xs.dropWhile p).isEmpty then [c] else xs.dropWhile p ++ [c] := by
  induction xs with
  | nil => simp [List.dropWhile_cons, hc]
  | cons a xs ih =>
    by_cases hp : p a
    · simpa [List.dropWhile_cons, hp] using ih
    · simp [List.dropWhile_cons, hp]

theorem lstrip_cons_of_not_ws {c : Char} (t : Line) (hc : c.isWhitespace = false) :
    lstrip (c :: t) = c :: t := by
  simp [lstrip, List.dropWhile_cons, hc]

theorem rstrip_cons_of_not_ws {c : Char} (t : Line) (hc : c.isWhitespace = false) :
    rstrip (c :: t) = c :: rstrip t := by
  unfold rstrip
  rw [List.reverse_cons, dropWhile_append_one _ _ _ hc]
  by_cases he : (t.reverse.dropWhile Char.isWhitespace).isEmpty
  · rw [List.isEmpty_iff] at he
    simp [he]
  · simp [he]

theorem strip_cons_of_not_ws {c : Char} (t : Line) (hc : c.isWhitespace = false) :
    strip (c :: t) = c :: rstrip t := by
  rw [strip, lstrip_cons_of_not_ws t hc, rstrip_cons_of_not_ws t hc]

theorem is_task_line_snd {l : Line} (h : (is_task_line l).2 = true) :
    (is_task_line l).1 = true := by
  unfold is_task_line at h ⊢
  by_cases hx : xMark.isPrefixOf (strip l) = true
  · simp [hx]
  · by_cases ho : oMark.isPrefixOf (strip l) = true <;> simp [hx, ho] at h ⊢

theorem task_not_blank {l : Line} (h : (is_task_line l).1 = true) :
    isBlankLine l = false := by
  unfold isBlankLine
  rcases hs : strip l with _ | ⟨a, t⟩
  · exfalso
    unfold is_task_line at h
    rw [hs] at h
    simp [xMark_eq, oMark_eq, List.isPrefixOf] at h
  · simp

theorem h2_not_task {l : Line} (h : h2Mark.isPrefixOf l = true) :
    is_task_line l = (false, false) := by
  rcases l with _ | ⟨c, t⟩
  · rw [h2Mark_eq] at h; simp [List.isPrefixOf] at h
  · rw [h2Mark_eq] at h
    simp only [List.isPrefixOf, Bool.and_eq_true, beq_iff_eq] at h
    obtain ⟨hc, -⟩ := h
    subst hc
    have hx : (('-' : Char) == '#') = false := by decide
    unfold is_task_line
    rw [strip_cons_of_not_ws t (by decide)]
    simp [xMark_eq, oMark_eq, List.isPrefixOf, hx]

/-! ### The block collector is a span -/

theorem collectBlock_eq_span (k : Nat) (ls : List Line) :
    collectBlock k ls = (ls.takeWhile (isDetail k), ls.dropWhile (isDetail k)) := by
  induction ls with
  | nil => rfl
  | cons l rest ih =>
    by_cases hb : isBlankLine l
    · have hd : isDetail k l = true := by simp [isDetail, hb]
      simp [collectBlock, hb, ih, List.takeWhile_cons, List.dropWhile_cons, hd]
    · by_cases hi : get_indent l > k
      · have hd : isDetail k l = true := by simp [isDetail, hi]
        simp [collectBlock, hb, hi, ih, List.takeWhile_cons, List.dropWhile_cons, hd]
      · have hd : isDetail k l = false := by simp [isDetail, hb, hi]
        simp [collectBlock, hb, hi, List.takeWhile_cons, List.dropWhile_cons, hd]

theorem collectBlock_rem_length_le (k : Nat) (ls : List Line) :
    (collectBlock k ls).2.length ≤ ls.length := by
  rw [collectBlock_eq_span]
  exact (List.dropWhile_sublist _).length_le

theorem collectBlock_blk_mem {k : Nat} {ls : List Line} {x : Line}
    (hx : x ∈ (collectBlock k ls).1) : isDetail k x = true := by
  rw [collectBlock_eq_span] at hx
  exact List.mem_takeWhile_imp hx

theorem collectBlock_append (k : Nat) (ls : List Line) :
    (collectBlock k ls).1 ++ (collectBlock k ls).2 = ls := by
  rw [collectBlock_eq_span]
  exact List.takeWhile_append_dropWhile ..

/-! ### Fuel irrelevance and unfolding equations for `process_section` -/

theorem psAux_fuel (hd : Line) :
    ∀ f1 f2 ls, ls.length ≤ f1 → ls.length ≤ f2 →
      psAux hd f1 ls = psAux hd f2 ls := by
  intro f1
  induction f1 with
  | zero =>
    intro f2 ls h1 h2
    rcases ls with _ | ⟨l, rest⟩
    · cases f2 <;> rfl
    · simp at h1
  | succ f1 ih =>
    intro f2 ls h1 h2
    rcases ls with _ | ⟨l, rest⟩
    · cases f2 <;> rfl
    · rcases f2 with _ | f2
      · simp at h2
      · simp only [List.length_cons, Nat.succ_le_succ_iff] at h1 h2
        have hrem : (collectBlock (get_indent l) rest).2.length ≤ rest.length :=
          collectBlock_rem_length_le ..
        simp only [psAux]
        rw [ih f2 (collectBlock (get_indent l) rest).2
              (le_trans hrem h1) (le_trans hrem h2),
            ih f2 rest h1 h2]

theorem process_section_nil (hd : Line) : process_section hd [] = ([], [], false) := rfl

theorem process_section_cons_nontask {l : Line} (hd : Line) (rest : List Line)
    (h : (is_task_line l).1 = false) :
    process_section hd (l :: rest) =
      (l :: (process_section hd rest).1,
       l :: (process_section hd rest).2.1,
       (process_section hd rest).2.2) := by
  unfold process_section
  simp only [List.length_cons, psAux, h]
  simp

theorem process_section_cons_completed {l : Line} (hd : Line) (rest : List Line)
    (h1 : (is_task_line l).1 = true) (h2 : (is_task_line l).2 = true) :
    process_section hd (l :: rest) =
      ((process_section hd (collectBlock (get_indent l) rest).2).1,
       (l :: (collectBlock (get_indent l) rest).1) ++
         (process_section hd (collectBlock (get_indent l) rest).2).2.1,
       (process_section hd (collectBlock (get_indent l) rest).2).2.2) := by
  unfold process_section
  simp only [List.length_cons, psAux, h1, h2]
  rw [psAux_fuel hd rest.length (collectBlock (get_indent l) rest).2.length
        (collectBlock (get_indent l) rest).2 (collectBlock_rem_length_le ..) le_rfl]
  simp

theorem process_section_cons_pending {l : Line} (hd : Line) (rest : List Line)
    (h1 : (is_task_line l).1 = true) (h2 : (is_task_line l).2 = false) :
    process_section hd (l :: rest) =
      ((l :: (collectBlock (get_indent l) rest).1) ++
         (process_section hd (collectBlock (get_indent l) rest).2).1,
       (process_section hd (collectBlock (get_indent l) rest).2).2.1,
       true) := by
  unfold process_section
  simp only [List.length_cons, psAux, h1, h2]
  rw [psAux_fuel hd rest.length (collectBlock (get_indent l) rest).2.length
        (collectBlock (get_indent l) rest).2 (collectBlock_rem_length_le ..) le_rfl]
  simp

/-! ### Fuel irrelevance and unfolding equations for `scanHeads` -/

theorem scanHeadsAux_fuel :
    ∀ f1 f2 ls, ls.length ≤ f1 → ls.length ≤ f2 →
      scanHeadsAux f1 ls = scanHeadsAux f2 ls := by
  intro f1
  induction f1 with
  | zero =>
    intro f2 ls h1 h2
    rcases ls with _ | ⟨l, rest⟩
    · cases f2 <;> rfl
    · simp at h1
  | succ f1 ih =>
    intro f2 ls h1 h2
    rcases ls with _ | ⟨l, rest⟩
    · cases f2 <;> rfl
    · rcases f2 with _ | f2
      · simp at h2
      · simp only [List.length_cons, Nat.succ_le_succ_iff] at h1 h2
        have hrem : (rest.dropWhile (isDetail (get_indent l))).length ≤ rest.length :=
          (List.dropWhile_sublist _).length_le
        simp only [scanHeadsAux]
        rw [ih f2 (rest.dropWhile (isDetail (get_indent l)))
              (le_trans hrem h1) (le_trans hrem h2),
            ih f2 rest h1 h2]

theorem scanHeads_nil : scanHeads [] = [] := rfl

theorem scanHeads_cons_task {l : Line} (rest : List Line)
    (h : (is_task_line l).1 = true) :
    scanHeads (l :: rest) =
      l :: scanHeads (rest.dropWhile (isDetail (get_indent l))) := by
  unfold scanHeads
  simp only [List.length_cons, scanHeadsAux, h]
  rw [scanHeadsAux_fuel rest.length (rest.dropWhile (isDetail (get_indent l))).length
        (rest.dropWhile (isDetail (get_indent l)))
        ((List.dropWhile_sublist _).length_le) le_rfl]
  simp

theorem scanHeads_cons_nontask {l : Line} (rest : List Line)
    (h : (is_task_line l).1 = false) :
    scanHeads (l :: rest) = scanHeads rest := by
  unfold scanHeads
  simp only [List.length_cons, scanHeadsAux, h]
  simp

/-! ### The assembly loop, restated by sections -/

theorem mainLoop_eq_routed :
    ∀ (ls : List Line) (hdr : Line) (cur pout aout : List Line),
      mainLoop ls hdr cur pout aout =
        (pout ++ (routed (sectionsAux ls hdr cur)).1,
         aout ++ (routed (sectionsAux ls hdr cur)).2) := by
  intro ls
  induction ls with
  | nil =>
    intro hdr cur pout aout
    by_cases he : hdr.isEmpty
    · simp [mainLoop, sectionsAux, flushSection, he, routed]
    · by_cases hp : (process_section hdr cur).2.2
      · simp [mainLoop, sectionsAux, flushSection, he, hp, routed]
      · simp [mainLoop, sectionsAux, flushSection, he, hp, routed]
  | cons l rest ih =>
    intro hdr cur pout aout
    by_cases h2 : h2Mark.isPrefixOf l
    · by_cases he : hdr.isEmpty
      · simp [mainLoop, sectionsAux, flushSection, h2, he, ih]
      · by_cases hp : (process_section hdr cur).2.2
        · simp [mainLoop, sectionsAux, flushSection, h2, he, hp, ih, routed,
            List.append_assoc]
        · simp [mainLoop, sectionsAux, flushSection, h2, he, hp, ih, routed,
            List.append_assoc]
    · by_cases h1 : h1Mark.isPrefixOf l
      · simp [mainLoop, sectionsAux, h2, h1, ih]
      · simp [mainLoop, sectionsAux, h2, h1, ih]

theorem buffers_eq (input : List Line) :
    buffers input =
      (pending_output_init ++ (routed (sections input)).1,
       archived_output_init ++ (routed (sections input)).2) := by
  unfold buffers sections
  exact mainLoop_eq_routed ..

/-! ### Invariants of the section decomposition -/

theorem sectionsAux_headers :
    ∀ (ls : List Line) (hdr : Line) (cur : List Line),
      (hdr.isEmpty = true ∨ h2Mark.isPrefixOf hdr = true) →
      ∀ pr ∈ sectionsAux ls hdr cur, h2Mark.isPrefixOf pr.1 = true := by
  intro ls
  induction ls with
  | nil =>
    intro hdr cur hh pr hpr
    unfold sectionsAux at hpr
    by_cases he : hdr.isEmpty
    · rw [if_pos he] at hpr
      simp at hpr
    · rw [if_neg he] at hpr
      rw [List.mem_singleton] at hpr
      subst hpr
      rcases hh with hh | hh
      · exact absurd hh he
      · exact hh
  | cons l rest ih =>
    intro hdr cur hh pr hpr
    unfold sectionsAux at hpr
    by_cases h2 : h2Mark.isPrefixOf l
    · rw [if_pos h2] at hpr
      by_cases he : hdr.isEmpty
      · rw [if_pos he] at hpr
        exact ih l [] (Or.inr h2) pr hpr
      · rw [if_neg he] at hpr
        rw [List.mem_cons] at hpr
        rcases hpr with hpr | hpr
        · subst hpr
          rcases hh with hh | hh
          · exact absurd hh he
          · exact hh
        · exact ih l [] (Or.inr h2) pr hpr
    · rw [if_neg h2] at hpr
      by_cases h1 : h1Mark.isPrefixOf l
      · rw [if_pos h1] at hpr
        exact ih hdr cur hh pr hpr
      · rw [if_neg h1] at hpr
        exact ih hdr (cur ++ [l]) hh pr hpr

theorem sections_headers {input : List Line} {pr : Line × List Line}
    (hpr : pr ∈ sections input) : h2Mark.isPrefixOf pr.1 = true :=
  sectionsAux_headers input [] [] (Or.inl rfl) pr hpr

theorem sectionsAux_body_not_h2 :
    ∀ (ls : List Line) (hdr : Line) (cur : List Line),
      (∀ x ∈ cur, h2Mark.isPrefixOf x = false) →
      ∀ pr ∈ sectionsAux ls hdr cur, ∀ x ∈ pr.2, h2Mark.isPrefixOf x = false := by
  intro ls
  induction ls with
  | nil =>
    intro hdr cur hc pr hpr
    unfold sectionsAux at hpr
    by_cases he : hdr.isEmpty
    · rw [if_pos he] at hpr
      simp at hpr
    · rw [if_neg he] at hpr
      rw [List.mem_singleton] at hpr
      subst hpr
      exact hc
  | cons l rest ih =>
    intro hdr cur hc pr hpr
    unfold sectionsAux at hpr
    by_cases h2 : h2Mark.isPrefixOf l
    · rw [if_pos h2] at hpr
      by_cases he : hdr.isEmpty
      · rw [if_pos he] at hpr
        exact ih l [] (by simp) pr hpr
      · rw [if_neg he] at hpr
        rw [List.mem_cons] at hpr
        rcases hpr with hpr | hpr
        · subst hpr
          exact hc
        · exact ih l [] (by simp) pr hpr
    · rw [if_neg h2] at hpr
      by_cases h1 : h1Mark.isPrefixOf l
      · rw [if_pos h1] at hpr
        exact ih hdr cur hc pr hpr
      · rw [if_neg h1] at hpr
        refine ih hdr (cur ++ [l]) ?_ pr hpr
        intro x hx
        rcases List.mem_append.1 hx with hx | hx
        · exact hc x hx
        · rw [List.mem_singleton] at hx
          subst hx
          rw [Bool.not_eq_true] at h2
          exact h2

theorem sections_body_not_h2 {input : List Line} {pr : Line × List Line}
    (hpr : pr ∈ sections input) : ∀ x ∈ pr.2, h2Mark.isPrefixOf x = false :=
  sectionsAux_body_not_h2 input [] [] (by simp) pr hpr

theorem sectionsAux_header_count {h : Line} (hh : h2Mark.isPrefixOf h = true) :
    ∀ (ls : List Line) (hdr : Line) (cur : List Line),
      List.count h ((sectionsAux ls hdr cur).map Prod.fst) =
        List.count h ls + (if hdr = h then 1 else 0) := by
  have hne : h ≠ [] := by
    intro he
    rw [he, h2Mark_eq] at hh
    simp [List.isPrefixOf] at hh
  intro ls
  induction ls with
  | nil =>
    intro hdr cur
    unfold sectionsAux
    by_cases he : hdr.isEmpty
    · have hdrnil : hdr = [] := by rwa [List.isEmpty_iff] at he
      subst hdrnil
      rw [if_pos he]
      simp [Ne.symm hne]
    · rw [if_neg he]
      simp [List.count_cons, List.count_nil]
  | cons l rest ih =>
    intro hdr cur
    unfold sectionsAux
    by_cases h2 : h2Mark.isPrefixOf l
    · by_cases he : hdr.isEmpty
      · have hdrnil : hdr = [] := by rwa [List.isEmpty_iff] at he
        subst hdrnil
        rw [if_pos h2, if_pos he, ih l [], List.count_cons]
        simp [Ne.symm hne]
      · rw [if_pos h2, if_neg he, List.map_cons, List.count_cons, ih l [],
          List.count_cons]
        by_cases hq1 : l = h <;> by_cases hq2 : hdr = h <;>
          simp [hq1, hq2]
    · have hlh : l ≠ h := by
        intro hl
        subst hl
        exact absurd hh h2
      by_cases h1 : h1Mark.isPrefixOf l
      · rw [if_neg h2, if_pos h1, ih hdr cur, List.count_cons]
        simp [hlh]
      · rw [if_neg h2, if_neg h1, ih hdr (cur ++ [l]), List.count_cons]
        simp [hlh]

theorem sections_header_count {input : List Line} {h : Line}
    (hh : h2Mark.isPrefixOf h = true) :
    List.count h ((sections input).map Prod.fst) = List.count h input := by
  unfold sections
  rw [sectionsAux_header_count hh input [] []]
  have hne : h ≠ [] := by
    intro he
    rw [he, h2Mark_eq] at hh
    simp [List.isPrefixOf] at hh
  simp [Ne.symm hne]

/-! ### Properties of the two buckets of `process_section` -/

theorem ps_buckets_sublist_aux :
    ∀ (n : Nat) (hd : Line) (b : List Line), b.length ≤ n →
      List.Sublist (process_section hd b).1 b ∧
      List.Sublist (process_section hd b).2.1 b := by
  intro n
  induction n with
  | zero =>
    intro hd b hb
    have hnil : b = [] := List.length_eq_zero.1 (Nat.le_zero.1 hb)
    subst hnil
    rw [process_section_nil]
    exact ⟨List.nil_sublist _, List.nil_sublist _⟩
  | succ n ih =>
    intro hd b hb
    rcases b with _ | ⟨l, rest⟩
    · rw [process_section_nil]
      exact ⟨List.nil_sublist _, List.nil_sublist _⟩
    · rw [List.length_cons, Nat.succ_le_succ_iff] at hb
      by_cases ht : (is_task_line l).1
      · have hsplit := collectBlock_append (get_indent l) rest
        have hlen : (collectBlock (get_indent l) rest).2.length ≤ n :=
          le_trans (collectBlock_rem_length_le ..) hb
        have hrec := ih hd (collectBlock (get_indent l) rest).2 hlen
        have hremsub : List.Sublist (collectBlock (get_indent l) rest).2 rest := by
          rw [collectBlock_eq_span]
          exact List.dropWhile_sublist _
        by_cases hc : (is_task_line l).2
        · rw [process_section_cons_completed hd rest ht hc]
          refine ⟨List.Sublist.cons _ (hrec.1.trans hremsub), ?_⟩
          rw [List.cons_append]
          refine List.Sublist.cons₂ _ ?_
          have hs2 := List.Sublist.append_left hrec.2 (collectBlock (get_indent l) rest).1
          rw [hsplit] at hs2
          exact hs2
        · rw [Bool.not_eq_true] at hc
          rw [process_section_cons_pending hd rest ht hc]
          refine ⟨?_, List.Sublist.cons _ (hrec.2.trans hremsub)⟩
          rw [List.cons_append]
          refine List.Sublist.cons₂ _ ?_
          have hs2 := List.Sublist.append_left hrec.1 (collectBlock (get_indent l) rest).1
          rw [hsplit] at hs2
          exact hs2
      · rw [Bool.not_eq_true] at ht
        rw [process_section_cons_nontask hd rest ht]
        have hrec := ih hd rest hb
        exact ⟨List.Sublist.cons₂ _ hrec.1, List.Sublist.cons₂ _ hrec.2⟩

theorem ps_pending_sublist (hd : Line) (b : List Line) :
    List.Sublist (process_section hd b).1 b :=
  (ps_buckets_sublist_aux b.length hd b le_rfl).1

theorem ps_archived_sublist (hd : Line) (b : List Line) :
    List.Sublist (process_section hd b).2.1 b :=
  (ps_buckets_sublist_aux b.length hd b le_rfl).2

theorem ps_cover_aux :
    ∀ (n : Nat) (hd : Line) (b : List Line), b.length ≤ n →
      ∀ x ∈ b, x ∈ (process_section hd b).1 ∨ x ∈ (process_section hd b).2.1 := by
  intro n
  induction n with
  | zero =>
    intro hd b hb x hx
    have hnil : b = [] := List.length_eq_zero.1 (Nat.le_zero.1 hb)
    subst hnil
    simp at hx
  | succ n ih =>
    intro hd b hb x hx
    rcases b with _ | ⟨l, rest⟩
    · simp at hx
    · rw [List.length_cons, Nat.succ_le_succ_iff] at hb
      by_cases ht : (is_task_line l).1
      · have hsplit := collectBlock_append (get_indent l) rest
        have hlen : (collectBlock (get_indent l) rest).2.length ≤ n :=
          le_trans (collectBlock_rem_length_le ..) hb
        by_cases hc : (is_task_line l).2
        · rw [process_section_cons_completed hd rest ht hc]
          rcases List.mem_cons.1 hx with hx | hx
          · subst hx
            exact Or.inr (by simp)
          · rw [← hsplit] at hx
            rcases List.mem_append.1 hx with hx | hx
            · exact Or.inr (by simp [hx])
            · rcases ih hd _ hlen x hx with hm | hm
              · exact Or.inl hm
              · exact Or.inr (by simp [hm])
        · rw [Bool.not_eq_true] at hc
          rw [process_section_cons_pending hd rest ht hc]
          rcases List.mem_cons.1 hx with hx | hx
          · subst hx
            exact Or.inl (by simp)
          · rw [← hsplit] at hx
            rcases List.mem_append.1 hx with hx | hx
            · exact Or.inl (by simp [hx])
            · rcases ih hd _ hlen x hx with hm | hm
              · exact Or.inl (by simp [hm])
              · exact Or.inr hm
      · rw [Bool.not_eq_true] at ht
        rw [process_section_cons_nontask hd rest ht]
        rcases List.mem_cons.1 hx with hx | hx
        · subst hx
          exact Or.inl (by simp)
        · rcases ih hd rest hb x hx with hm | hm
          · exact Or.inl (by simp [hm])
          · exact Or.inr (by simp [hm])

theorem ps_cover (hd : Line) (b : List Line) :
    ∀ x ∈ b, x ∈ (process_section hd b).1 ∨ x ∈ (process_section hd b).2.1 :=
  ps_cover_aux b.length hd b le_rfl

theorem ps_not_hp_archived_aux :
    ∀ (n : Nat) (hd : Line) (b : List Line), b.length ≤ n →
      (process_section hd b).2.2 = false → (process_section hd b).2.1 = b := by
  intro n
  induction n with
  | zero =>
    intro hd b hb _
    have hnil : b = [] := List.length_eq_zero.1 (Nat.le_zero.1 hb)
    subst hnil
    rw [process_section_nil]
  | succ n ih =>
    intro hd b hb hp
    rcases b with _ | ⟨l, rest⟩
    · rw [process_section_nil]
    · rw [List.length_cons, Nat.succ_le_succ_iff] at hb
      by_cases ht : (is_task_line l).1
      · have hsplit := collectBlock_append (get_indent l) rest
        have hlen : (collectBlock (get_indent l) rest).2.length ≤ n :=
          le_trans (collectBlock_rem_length_le ..) hb
        by_cases hc : (is_task_line l).2
        · rw [process_section_cons_completed hd rest ht hc] at hp ⊢
          simp only at hp ⊢
          rw [ih hd _ hlen hp, List.cons_append, hsplit]
        · rw [Bool.not_eq_true] at hc
          rw [process_section_cons_pending hd rest ht hc] at hp
          simp at hp
      · rw [Bool.not_eq_true] at ht
        rw [process_section_cons_nontask hd rest ht] at hp ⊢
        simp only at hp ⊢
        rw [ih hd rest hb hp]

theorem ps_not_hp_archived (hd : Line) (b : List Line)
    (hp : (process_section hd b).2.2 = false) : (process_section hd b).2.1 = b :=
  ps_not_hp_archived_aux b.length hd b le_rfl hp

theorem ps_no_task (hd : Line) :
    ∀ b : List Line, (∀ x ∈ b, (is_task_line x).1 = false) →
      process_section hd b = (b, b, false) := by
  intro b
  induction b with
  | nil => intro _; rw [process_section_nil]
  | cons l rest ih =>
    intro hall
    have ht : (is_task_line l).1 = false := hall l (by simp)
    rw [process_section_cons_nontask hd rest ht,
        ih (fun x hx => hall x (by simp [hx]))]

/-! ### Properties of `clean_empty_lines` -/

theorem cleanAux_sublist :
    ∀ (ls : List Line) (prev : Bool), List.Sublist (cleanAux ls prev) ls := by
  intro ls
  induction ls with
  | nil => intro prev; exact List.Sublist.refl _
  | cons l ls ih =>
    intro prev
    unfold cleanAux
    by_cases hb : (isBlankLine l && prev) = true
    · rw [if_pos hb]
      exact List.Sublist.cons _ (ih prev)
    · rw [if_neg hb]
      exact List.Sublist.cons₂ _ (ih _)

theorem clean_sublist (ls : List Line) :
    List.Sublist (clean_empty_lines ls) ls :=
  cleanAux_sublist ls false

theorem cleanAux_mem_of_not_blank :
    ∀ (ls : List Line) (prev : Bool) (x : Line), x ∈ ls →
      isBlankLine x = false → x ∈ cleanAux ls prev := by
  intro ls
  induction ls with
  | nil => intro prev x hx; simp at hx
  | cons l ls ih =>
    intro prev x hx hnb
    unfold cleanAux
    by_cases hb : (isBlankLine l && prev) = true
    · rw [if_pos hb]
      rcases List.mem_cons.1 hx with hx | hx
      · subst hx
        rw [Bool.and_eq_true] at hb
        exact absurd hb.1 (by rw [hnb]; simp)
      · exact ih prev x hx hnb
    · rw [if_neg hb]
      rcases List.mem_cons.1 hx with hx | hx
      · subst hx
        simp
      · simp [ih _ x hx hnb]

theorem clean_mem_of_not_blank {ls : List Line} {x : Line} (hx : x ∈ ls)
    (hnb : isBlankLine x = false) : x ∈ clean_empty_lines ls :=
  cleanAux_mem_of_not_blank ls false x hx hnb

theorem cleanAux_filter_not_blank :
    ∀ (ls : List Line) (prev : Bool),
      (cleanAux ls prev).filter (fun x => !isBlankLine x) =
        ls.filter (fun x => !isBlankLine x) := by
  intro ls
  induction ls with
  | nil => intro prev; rfl
  | cons l ls ih =>
    intro prev
    unfold cleanAux
    by_cases hbl : isBlankLine l
    · by_cases hb : (isBlankLine l && prev) = true
      · rw [if_pos hb, ih prev, List.filter_cons, hbl]
        simp
      · rw [if_neg hb, List.filter_cons, List.filter_cons, hbl, ih]
    · have hb : (isBlankLine l && prev) = false := by
        rw [Bool.not_eq_true] at hbl
        simp [hbl]
      rw [hb]
      simp only [Bool.false_eq_true, if_false]
      rw [Bool.not_eq_true] at hbl
      rw [List.filter_cons, List.filter_cons, hbl, ih]

theorem cleanAux_head_not_blank :
    ∀ (ls : List Line) (h : Line) (t : List Line),
      cleanAux ls true = h :: t → isBlankLine h = false := by
  intro ls
  induction ls with
  | nil => intro h t hc; simp [cleanAux] at hc
  | cons l ls ih =>
    intro h t hc
    unfold cleanAux at hc
    by_cases hbl : isBlankLine l
    · rw [if_pos (by simp [hbl])] at hc
      exact ih h t hc
    · rw [Bool.not_eq_true] at hbl
      rw [if_neg (by simp [hbl])] at hc
      rw [List.cons.injEq] at hc
      rw [← hc.1]
      exact hbl

theorem cleanAux_noTwoBlank :
    ∀ (ls : List Line) (prev : Bool), noTwoBlank (cleanAux ls prev) = true := by
  intro ls
  induction ls with
  | nil => intro prev; rfl
  | cons l ls ih =>
    intro prev
    unfold cleanAux
    by_cases hb : (isBlankLine l && prev) = true
    · rw [if_pos hb]
      exact ih prev
    · rw [if_neg hb]
      rcases hX : cleanAux ls (isBlankLine l) with _ | ⟨h, t⟩
      · rfl
      · have h1 : noTwoBlank (h :: t) = true := by rw [← hX]; exact ih _
        have h2 : (isBlankLine l && isBlankLine h) = false := by
          by_cases hbl : isBlankLine l
          · have := cleanAux_head_not_blank ls h t (by rw [hbl] at hX; exact hX)
            simp [this]
          · rw [Bool.not_eq_true] at hbl
            simp [hbl]
        simp [noTwoBlank, h1, h2]

theorem clean_noTwoBlank (ls : List Line) :
    noTwoBlank (clean_empty_lines ls) = true :=
  cleanAux_noTwoBlank ls false

/-! ### Membership in the routed buffers -/

theorem routed_nil : routed [] = ([], []) := rfl

theorem routed_cons (h : Line) (b : List Line) (t : List (Line × List Line)) :
    routed ((h, b) :: t) =
      if (process_section h b).2.2 then
        ((h :: (process_section h b).1) ++ (routed t).1, (routed t).2)
      else ((routed t).1, (h :: (process_section h b).2.1) ++ (routed t).2) := rfl

theorem routed_mem_pending :
    ∀ (secs : List (Line × List Line)) (h : Line) (b : List Line),
      (h, b) ∈ secs → (process_section h b).2.2 = true →
      ∀ x, (x = h ∨ x ∈ (process_section h b).1) → x ∈ (routed secs).1 := by
  intro secs
  induction secs with
  | nil => intro h b hmem; simp at hmem
  | cons s t ih =>
    intro h b hmem hp x hx
    rcases s with ⟨h', b'⟩
    rcases List.mem_cons.1 hmem with heq | htl
    · rw [Prod.mk.injEq] at heq
      obtain ⟨rfl, rfl⟩ := heq
      unfold routed
      simp only [hp, if_true]
      rcases hx with hx | hx
      · subst hx; simp
      · simp [hx]
    · unfold routed
      have hrec := ih h b htl hp x hx
      by_cases hp' : (process_section h' b').2.2
      · simp only [hp', if_true]
        simp [hrec]
      · simp only [hp', if_false]
        simp [hrec]

theorem routed_mem_archived :
    ∀ (secs : List (Line × List Line)) (h : Line) (b : List Line),
      (h, b) ∈ secs → (process_section h b).2.2 = false →
      ∀ x, (x = h ∨ x ∈ (process_section h b).2.1) → x ∈ (routed secs).2 := by
  intro secs
  induction secs with
  | nil => intro h b hmem; simp at hmem
  | cons s t ih =>
    intro h b hmem hp x hx
    rcases s with ⟨h', b'⟩
    rcases List.mem_cons.1 hmem with heq | htl
    · rw [Prod.mk.injEq] at heq
      obtain ⟨rfl, rfl⟩ := heq
      unfold routed
      simp only [hp, Bool.false_eq_true, if_false]
      rcases hx with hx | hx
      · subst hx; simp
      · simp [hx]
    · unfold routed
      have hrec := ih h b htl hp x hx
      by_cases hp' : (process_section h' b').2.2
      · simp only [hp', if_true]
        simp [hrec]
      · simp only [hp', if_false]
        simp [hrec]

/-! ### Counting marker lines -/

/-- The number of lines of `ls` satisfying `q`. -/
def countQ (q : Line → Bool) (ls : List Line) : Nat := (ls.filter q).length

theorem countQ_nil (q : Line → Bool) : countQ q [] = 0 := rfl

theorem countQ_cons (q : Line → Bool) (l : Line) (ls : List Line) :
    countQ q (l :: ls) = (if q l then 1 else 0) + countQ q ls := by
  unfold countQ
  rw [List.filter_cons]
  by_cases hq : q l <;> simp [hq, Nat.add_comm]

theorem countQ_append (q : Line → Bool) (xs ys : List Line) :
    countQ q (xs ++ ys) = countQ q xs + countQ q ys := by
  unfold countQ
  rw [List.filter_append, List.length_append]

theorem countQ_sublist_le (q : Line → Bool) {xs ys : List Line}
    (h : List.Sublist xs ys) : countQ q xs ≤ countQ q ys :=
  (h.filter q).length_le

/-- Weight of a section list: for each section, the `q`-count of its header
plus its whole body. -/
def secsWeight (q : Line → Bool) : List (Line × List Line) → Nat
  | [] => 0
  | (h, b) :: t => countQ q (h :: b) + secsWeight q t

theorem routed_countQ_le (q : Line → Bool) :
    ∀ secs : List (Line × List Line),
      countQ q (routed secs).1 + countQ q (routed secs).2 ≤ secsWeight q secs := by
  intro secs
  induction secs with
  | nil => simp [routed, countQ_nil, secsWeight]
  | cons s t ih =>
    rcases s with ⟨h, b⟩
    unfold routed secsWeight
    have hpe : countQ q (process_section h b).1 ≤ countQ q b :=
      countQ_sublist_le q (ps_pending_sublist h b)
    have hae : countQ q (process_section h b).2.1 ≤ countQ q b :=
      countQ_sublist_le q (ps_archived_sublist h b)
    by_cases hp : (process_section h b).2.2
    · rw [if_pos hp]
      dsimp only
      rw [countQ_cons, countQ_append, countQ_cons]
      omega
    · rw [if_neg hp]
      dsimp only
      rw [countQ_cons, countQ_append, countQ_cons]
      omega

theorem sectionsAux_secsWeight_le (q : Line → Bool) :
    ∀ (ls : List Line) (hdr : Line) (cur : List Line),
      secsWeight q (sectionsAux ls hdr cur) ≤
        countQ q ls + countQ q (hdr :: cur) := by
  intro ls
  induction ls with
  | nil =>
    intro hdr cur
    unfold sectionsAux
    by_cases he : hdr.isEmpty
    · rw [if_pos he]
      simp [secsWeight]
    · rw [if_neg he]
      simp [secsWeight, countQ_nil]
  | cons l rest ih =>
    intro hdr cur
    unfold sectionsAux
    have hc1 : countQ q (l :: rest) = (if q l then 1 else 0) + countQ q rest :=
      countQ_cons ..
    have hc2 : countQ q (hdr :: cur) = (if q hdr then 1 else 0) + countQ q cur :=
      countQ_cons ..
    by_cases h2 : h2Mark.isPrefixOf l
    · rw [if_pos h2]
      by_cases he : hdr.isEmpty
      · rw [if_pos he]
        have := ih l []
        rw [countQ_cons q l []] at this
        rw [hc1, hc2]
        simp only [countQ_nil] at this
        omega
      · rw [if_neg he]
        unfold secsWeight
        have := ih l []
        rw [countQ_cons q l []] at this
        rw [hc1, hc2]
        simp only [countQ_nil] at this
        omega
    · rw [if_neg h2]
      by_cases h1 : h1Mark.isPrefixOf l
      · rw [if_pos h1]
        have := ih hdr cur
        rw [hc1]
        omega
      · rw [if_neg h1]
        have := ih hdr (cur ++ [l])
        rw [countQ_cons, countQ_append, countQ_cons q l []] at this
        rw [hc1, hc2]
        simp only [countQ_nil] at this
        omega

theorem buffers_countQ_le (q : Line → Bool) (hq : q [] = false)
    (input : List Line) :
    countQ q (buffers input).1 + countQ q (buffers input).2 ≤
      countQ q pending_output_init + countQ q archived_output_init +
        countQ q input := by
  rw [buffers_eq input, countQ_append, countQ_append]
  have h1 := routed_countQ_le q (sections input)
  have h2 : secsWeight q (sections input) ≤
      countQ q input + countQ q (([] : Line) :: ([] : List Line)) :=
    sectionsAux_secsWeight_le q input [] []
  rw [countQ_cons q [] []] at h2
  simp only [countQ_nil, hq, Bool.false_eq_true, if_false] at h2
  omega

theorem transform_countQ_le (q : Line → Bool) (hq : q [] = false)
    (input : List Line) :
    countQ q (transform input).1 + countQ q (transform input).2 ≤
      countQ q pending_output_init + countQ q archived_output_init +
        countQ q input := by
  unfold transform
  have h1 : countQ q (clean_empty_lines (buffers input).1) ≤
      countQ q (buffers input).1 :=
    countQ_sublist_le q (clean_sublist _)
  have h2 : countQ q (clean_empty_lines (buffers input).2) ≤
      countQ q (buffers input).2 :=
    countQ_sublist_le q (clean_sublist _)
  have h3 := buffers_countQ_le q hq input
  simp only []
  omega

/-! ### Shielded lists: every `bad` marker line sits strictly inside a task
block headed by a good task line, so a re-scan never sees a `bad` block head. -/

/-- `Shielded bad ls` says `ls` is a concatenation of units, each being a
single line that is not `bad`, or a task block `m :: blk` whose head `m` is a
task line that is not `bad` and whose members are all detail lines of `m`
(blank or strictly deeper).  In such a list, `bad` lines occur only nested
inside blocks of the other kind. -/
inductive Shielded (bad : Line → Bool) : List Line → Prop
  | nil : Shielded bad []
  | single {l : Line} {ls : List Line} :
      bad l = false → Shielded bad ls → Shielded bad (l :: ls)
  | block {m : Line} {blk ls : List Line} :
      (is_task_line m).1 = true → bad m = false →
      (∀ x ∈ blk, isDetail (get_indent m) x = true) →
      Shielded bad ls → Shielded bad (m :: (blk ++ ls))

theorem shielded_append {bad : Line → Bool} :
    ∀ {xs ys : List Line}, Shielded bad xs → Shielded bad ys →
      Shielded bad (xs ++ ys) := by
  intro xs ys hx hy
  induction hx with
  | nil => simpa using hy
  | single hb _ ih =>
    rw [List.cons_append]
    exact Shielded.single hb ih
  | block hm hb hblk _ ih =>
    rw [List.cons_append, List.append_assoc]
    exact Shielded.block hm hb hblk ih

theorem dropWhile_all {α : Type} (p : α → Bool) (a b : List α)
    (ha : ∀ x ∈ a, p x = true) : (a ++ b).dropWhile p = b.dropWhile p := by
  induction a with
  | nil => rfl
  | cons x a ih =>
    rw [List.cons_append, List.dropWhile_cons, if_pos (ha x (by simp))]
    exact ih (fun y hy => ha y (by simp [hy]))

theorem isDetail_mono {k j : Nat} {x : Line} (hkj : k ≤ j)
    (hx : isDetail j x = true) : isDetail k x = true := by
  unfold isDetail at hx ⊢
  rw [Bool.or_eq_true] at hx ⊢
  rcases hx with h | h
  · exact Or.inl h
  · right
    simp only [decide_eq_true_eq] at h ⊢
    omega

theorem blank_not_task {l : Line} (hb : isBlankLine l = true) :
    (is_task_line l).1 = false := by
  by_contra ht
  rw [Bool.not_eq_false] at ht
  rw [task_not_blank ht] at hb
  exact absurd hb (by decide)

theorem not_task_not_completed {l : Line} (ht : (is_task_line l).1 = false) :
    (is_task_line l).2 = false := by
  by_contra hc
  rw [Bool.not_eq_false] at hc
  rw [is_task_line_snd hc] at ht
  exact absurd ht (by decide)

theorem shielded_dropWhile {bad : Line → Bool} (k : Nat) :
    ∀ {ls : List Line}, Shielded bad ls →
      Shielded bad (ls.dropWhile (isDetail k)) := by
  intro ls h
  induction h with
  | nil => exact Shielded.nil
  | @single l ls' hb hs ih =>
    rw [List.dropWhile_cons]
    by_cases hd : isDetail k l = true
    · rw [if_pos hd]
      exact ih
    · rw [if_neg hd]
      exact Shielded.single hb hs
  | @block m blk ls' hm hb hblk hs ih =>
    rw [List.dropWhile_cons]
    by_cases hd : isDetail k m = true
    · rw [if_pos hd]
      have hmk : k ≤ get_indent m := by
        have hnb := task_not_blank hm
        rw [isDetail, hnb, Bool.false_or, decide_eq_true_eq] at hd
        omega
      rw [dropWhile_all _ _ _ (fun x hx => isDetail_mono hmk (hblk x hx))]
      exact ih
    · rw [if_neg hd]
      exact Shielded.block hm hb hblk hs

theorem shielded_scanHeads_aux {bad : Line → Bool} :
    ∀ (n : Nat) (ls : List Line), ls.length ≤ n → Shielded bad ls →
      ∀ h ∈ scanHeads ls, bad h = false := by
  intro n
  induction n with
  | zero =>
    intro ls hl hs h hh
    have hnil : ls = [] := List.length_eq_zero.1 (Nat.le_zero.1 hl)
    subst hnil
    rw [scanHeads_nil] at hh
    simp at hh
  | succ n ih =>
    intro ls hl hs h hh
    cases hs with
    | nil =>
      rw [scanHeads_nil] at hh
      simp at hh
    | @single l ls' hb hsh =>
      rw [List.length_cons, Nat.succ_le_succ_iff] at hl
      by_cases ht : (is_task_line l).1
      · rw [scanHeads_cons_task ls' ht] at hh
        rcases List.mem_cons.1 hh with hh | hh
        · subst hh
          exact hb
        · refine ih (ls'.dropWhile (isDetail (get_indent l)))
            (le_trans (List.dropWhile_sublist _).length_le hl)
            (shielded_dropWhile _ hsh) h hh
      · rw [Bool.not_eq_true] at ht
        rw [scanHeads_cons_nontask ls' ht] at hh
        exact ih ls' hl hsh h hh
    | @block m blk ls' hm hb hblk hsh =>
      rw [List.length_cons, Nat.succ_le_succ_iff, List.length_append] at hl
      rw [scanHeads_cons_task _ hm] at hh
      rw [dropWhile_all _ _ _ hblk] at hh
      rcases List.mem_cons.1 hh with hh | hh
      · subst hh
        exact hb
      · refine ih (ls'.dropWhile (isDetail (get_indent m)))
          (le_trans (List.dropWhile_sublist _).length_le (by omega))
          (shielded_dropWhile _ hsh) h hh

/-! ### The buckets of `process_section` are shielded -/

theorem ps_pending_shielded_aux :
    ∀ (n : Nat) (hd : Line) (b : List Line), b.length ≤ n →
      Shielded completedMarker (process_section hd b).1 := by
  intro n
  induction n with
  | zero =>
    intro hd b hb
    have hnil : b = [] := List.length_eq_zero.1 (Nat.le_zero.1 hb)
    subst hnil
    rw [process_section_nil]
    exact Shielded.nil
  | succ n ih =>
    intro hd b hb
    rcases b with _ | ⟨l, rest⟩
    · rw [process_section_nil]
      exact Shielded.nil
    · rw [List.length_cons, Nat.succ_le_succ_iff] at hb
      by_cases ht : (is_task_line l).1
      · have hlen : (collectBlock (get_indent l) rest).2.length ≤ n :=
          le_trans (collectBlock_rem_length_le ..) hb
        by_cases hc : (is_task_line l).2
        · rw [process_section_cons_completed hd rest ht hc]
          exact ih hd _ hlen
        · rw [Bool.not_eq_true] at hc
          rw [process_section_cons_pending hd rest ht hc, List.cons_append]
          exact Shielded.block ht (by rw [completedMarker, hc])
            (fun x hx => collectBlock_blk_mem hx) (ih hd _ hlen)
      · rw [Bool.not_eq_true] at ht
        rw [process_section_cons_nontask hd rest ht]
        exact Shielded.single (by rw [completedMarker, not_task_not_completed ht])
          (ih hd rest hb)

theorem ps_pending_shielded (hd : Line) (b : List Line) :
    Shielded completedMarker (process_section hd b).1 :=
  ps_pending_shielded_aux b.length hd b le_rfl

theorem ps_archived_shielded_aux :
    ∀ (n : Nat) (hd : Line) (b : List Line), b.length ≤ n →
      Shielded pendingMarker (process_section hd b).2.1 := by
  intro n
  induction n with
  | zero =>
    intro hd b hb
    have hnil : b = [] := List.length_eq_zero.1 (Nat.le_zero.1 hb)
    subst hnil
    rw [process_section_nil]
    exact Shielded.nil
  | succ n ih =>
    intro hd b hb
    rcases b with _ | ⟨l, rest⟩
    · rw [process_section_nil]
      exact Shielded.nil
    · rw [List.length_cons, Nat.succ_le_succ_iff] at hb
      by_cases ht : (is_task_line l).1
      · have hlen : (collectBlock (get_indent l) rest).2.length ≤ n :=
          le_trans (collectBlock_rem_length_le ..) hb
        by_cases hc : (is_task_line l).2
        · rw [process_section_cons_completed hd rest ht hc, List.cons_append]
          exact Shielded.block ht (by rw [pendingMarker, hc]; simp)
            (fun x hx => collectBlock_blk_mem hx) (ih hd _ hlen)
        · rw [Bool.not_eq_true] at hc
          rw [process_section_cons_pending hd rest ht hc]
          exact ih hd _ hlen
      · rw [Bool.not_eq_true] at ht
        rw [process_section_cons_nontask hd rest ht]
        exact Shielded.single (by rw [pendingMarker, ht]; simp) (ih hd rest hb)

theorem ps_archived_shielded (hd : Line) (b : List Line) :
    Shielded pendingMarker (process_section hd b).2.1 :=
  ps_archived_shielded_aux b.length hd b le_rfl

/-! ### Scan heads ignore blank lines, hence survive `clean_empty_lines` -/

theorem dropWhile_filter_not_blank (k : Nat) :
    ∀ ls : List Line,
      (ls.filter (fun x => !isBlankLine x)).dropWhile (isDetail k) =
        (ls.dropWhile (isDetail k)).filter (fun x => !isBlankLine x) := by
  intro ls
  induction ls with
  | nil => rfl
  | cons l ls ih =>
    by_cases hb : isBlankLine l
    · have hd : isDetail k l = true := by simp [isDetail, hb]
      rw [List.filter_cons, List.dropWhile_cons, if_pos hd]
      simp only [hb, Bool.not_true, Bool.false_eq_true, if_false]
      exact ih
    · rw [Bool.not_eq_true] at hb
      rw [List.filter_cons]
      simp only [hb, Bool.not_false, if_true]
      rw [List.dropWhile_cons, List.dropWhile_cons]
      by_cases hd : isDetail k l = true
      · rw [if_pos hd, if_pos hd]
        exact ih
      · rw [if_neg hd, if_neg hd, List.filter_cons]
        simp only [hb, Bool.not_false, if_true]

theorem scanHeads_filter_aux :
    ∀ (n : Nat) (ls : List Line), ls.length ≤ n →
      scanHeads (ls.filter (fun x => !isBlankLine x)) = scanHeads ls := by
  intro n
  induction n with
  | zero =>
    intro ls hl
    have hnil : ls = [] := List.length_eq_zero.1 (Nat.le_zero.1 hl)
    subst hnil
    rfl
  | succ n ih =>
    intro ls hl
    rcases ls with _ | ⟨l, rest⟩
    · rfl
    · rw [List.length_cons, Nat.succ_le_succ_iff] at hl
      by_cases hb : isBlankLine l
      · have ht : (is_task_line l).1 = false := blank_not_task hb
        rw [List.filter_cons]
        simp only [hb, Bool.not_true, Bool.false_eq_true, if_false]
        rw [scanHeads_cons_nontask rest ht]
        exact ih rest hl
      · rw [Bool.not_eq_true] at hb
        rw [List.filter_cons]
        simp only [hb, Bool.not_false, if_true]
        by_cases ht : (is_task_line l).1
        · rw [scanHeads_cons_task _ ht, scanHeads_cons_task _ ht,
              dropWhile_filter_not_blank]
          rw [ih (rest.dropWhile (isDetail (get_indent l)))
                (le_trans (List.dropWhile_sublist _).length_le hl)]
        · rw [Bool.not_eq_true] at ht
          rw [scanHeads_cons_nontask _ ht, scanHeads_cons_nontask rest ht]
          exact ih rest hl

theorem scanHeads_filter (ls : List Line) :
    scanHeads (ls.filter (fun x => !isBlankLine x)) = scanHeads ls :=
  scanHeads_filter_aux ls.length ls le_rfl

theorem scanHeads_clean (ls : List Line) :
    scanHeads (clean_empty_lines ls) = scanHeads ls := by
  rw [← scanHeads_filter (clean_empty_lines ls), ← scanHeads_filter ls]
  unfold clean_empty_lines
  rw [cleanAux_filter_not_blank ls false]

/-! ### `has_pending` is the presence of a pending block head -/

theorem ps_hp_eq_scanHeads_aux :
    ∀ (n : Nat) (hd : Line) (b : List Line), b.length ≤ n →
      (process_section hd b).2.2 = (scanHeads b).any pendingMarker := by
  intro n
  induction n with
  | zero =>
    intro hd b hb
    have hnil : b = [] := List.length_eq_zero.1 (Nat.le_zero.1 hb)
    subst hnil
    rw [process_section_nil, scanHeads_nil]
    rfl
  | succ n ih =>
    intro hd b hb
    rcases b with _ | ⟨l, rest⟩
    · rw [process_section_nil, scanHeads_nil]
      rfl
    · rw [List.length_cons, Nat.succ_le_succ_iff] at hb
      by_cases ht : (is_task_line l).1
      · have hlen : (collectBlock (get_indent l) rest).2.length ≤ n :=
          le_trans (collectBlock_rem_length_le ..) hb
        have hrem : (collectBlock (get_indent l) rest).2 =
            rest.dropWhile (isDetail (get_indent l)) := by
          rw [collectBlock_eq_span]
        by_cases hc : (is_task_line l).2
        · rw [process_section_cons_completed hd rest ht hc,
              scanHeads_cons_task rest ht, List.any_cons]
          have hpm : pendingMarker l = false := by rw [pendingMarker, hc]; simp
          rw [hpm, Bool.false_or, ← hrem]
          exact ih hd _ hlen
        · rw [Bool.not_eq_true] at hc
          rw [process_section_cons_pending hd rest ht hc,
              scanHeads_cons_task rest ht, List.any_cons]
          have hpm : pendingMarker l = true := by rw [pendingMarker, ht, hc]; simp
          rw [hpm, Bool.true_or]
      · rw [Bool.not_eq_true] at ht
        rw [process_section_cons_nontask hd rest ht, scanHeads_cons_nontask rest ht]
        exact ih hd rest hb

theorem ps_hp_eq_scanHeads (hd : Line) (b : List Line) :
    (process_section hd b).2.2 = (scanHeads b).any pendingMarker :=
  ps_hp_eq_scanHeads_aux b.length hd b le_rfl

/-! ### Assembly-level consequences -/

theorem shielded_of_all_not_bad {bad : Line → Bool} :
    ∀ {ls : List Line}, (∀ x ∈ ls, bad x = false) → Shielded bad ls := by
  intro ls
  induction ls with
  | nil => intro _; exact Shielded.nil
  | cons l ls ih =>
    intro hall
    exact Shielded.single (hall l (by simp)) (ih (fun x hx => hall x (by simp [hx])))

theorem shielded_scanHeads {bad : Line → Bool} {ls : List Line}
    (hs : Shielded bad ls) : ∀ h ∈ scanHeads ls, bad h = false :=
  shielded_scanHeads_aux ls.length ls le_rfl hs

theorem h2_not_blank {l : Line} (h : h2Mark.isPrefixOf l = true) :
    isBlankLine l = false := by
  rcases l with _ | ⟨c, t⟩
  · rw [h2Mark_eq] at h; simp [List.isPrefixOf] at h
  · rw [h2Mark_eq] at h
    simp only [List.isPrefixOf, Bool.and_eq_true, beq_iff_eq] at h
    obtain ⟨hc, -⟩ := h
    subst hc
    rw [isBlankLine, strip_cons_of_not_ws t (by decide)]
    simp

theorem h2_not_completedMarker {l : Line} (h : h2Mark.isPrefixOf l = true) :
    completedMarker l = false := by
  rw [completedMarker, h2_not_task h]

theorem h2_not_pendingMarker {l : Line} (h : h2Mark.isPrefixOf l = true) :
    pendingMarker l = false := by
  rw [pendingMarker, h2_not_task h]
  simp

theorem routed_pending_shielded :
    ∀ secs : List (Line × List Line),
      (∀ pr ∈ secs, h2Mark.isPrefixOf pr.1 = true) →
      Shielded completedMarker (routed secs).1 := by
  intro secs
  induction secs with
  | nil => intro _; exact Shielded.nil
  | cons s t ih =>
    intro hall
    rcases s with ⟨h, b⟩
    unfold routed
    have hh : h2Mark.isPrefixOf h = true := hall (h, b) (by simp)
    have hrec := ih (fun pr hpr => hall pr (by simp [hpr]))
    by_cases hp : (process_section h b).2.2
    · rw [if_pos hp]
      exact Shielded.single (h2_not_completedMarker hh)
        (shielded_append (ps_pending_shielded h b) hrec)
    · rw [if_neg hp]
      exact hrec

theorem routed_archived_shielded :
    ∀ secs : List (Line × List Line),
      (∀ pr ∈ secs, h2Mark.isPrefixOf pr.1 = true) →
      Shielded pendingMarker (routed secs).2 := by
  intro secs
  induction secs with
  | nil => intro _; exact Shielded.nil
  | cons s t ih =>
    intro hall
    rcases s with ⟨h, b⟩
    unfold routed
    have hh : h2Mark.isPrefixOf h = true := hall (h, b) (by simp)
    have hrec := ih (fun pr hpr => hall pr (by simp [hpr]))
    by_cases hp : (process_section h b).2.2
    · rw [if_pos hp]
      exact hrec
    · rw [if_neg hp]
      exact Shielded.single (h2_not_pendingMarker hh)
        (shielded_append (ps_archived_shielded h b) hrec)

theorem pending_init_not_completed :
    ∀ x ∈ pending_output_init, completedMarker x = false := by decide

theorem archived_init_not_pending :
    ∀ x ∈ archived_output_init, pendingMarker x = false := by decide

theorem pending_init_not_h2 :
    ∀ x ∈ pending_output_init, h2Mark.isPrefixOf x = false := by decide

theorem archived_init_not_h2 :
    ∀ x ∈ archived_output_init, h2Mark.isPrefixOf x = false := by decide

theorem transform_pending_heads (input : List Line) :
    ∀ h ∈ scanHeads (transform input).1, completedMarker h = false := by
  intro h hh
  have ht : (transform input).1 = clean_empty_lines (buffers input).1 := rfl
  rw [ht, scanHeads_clean, buffers_eq input] at hh
  refine shielded_scanHeads ?_ h hh
  exact shielded_append (shielded_of_all_not_bad pending_init_not_completed)
    (routed_pending_shielded (sections input)
      (fun pr hpr => sections_headers hpr))

theorem transform_archived_heads (input : List Line) :
    ∀ h ∈ scanHeads (transform input).2, pendingMarker h = false := by
  intro h hh
  have ht : (transform input).2 = clean_empty_lines (buffers input).2 := rfl
  rw [ht, scanHeads_clean, buffers_eq input] at hh
  refine shielded_scanHeads ?_ h hh
  exact shielded_append (shielded_of_all_not_bad archived_init_not_pending)
    (routed_archived_shielded (sections input)
      (fun pr hpr => sections_headers hpr))

/-! ### Routing a section's lines into the final outputs -/

theorem section_pending_in_transform {input : List Line} {hdr : Line}
    {body : List Line} (hsec : (hdr, body) ∈ sections input)
    (hp : (process_section hdr body).2.2 = true) (x : Line)
    (hx : x = hdr ∨ x ∈ (process_section hdr body).1)
    (hnb : isBlankLine x = false) : x ∈ (transform input).1 := by
  have hbuf : x ∈ (buffers input).1 := by
    rw [buffers_eq input]
    exact List.mem_append.2 (Or.inr (routed_mem_pending _ hdr body hsec hp x hx))
  exact clean_mem_of_not_blank hbuf hnb

theorem section_archived_in_transform {input : List Line} {hdr : Line}
    {body : List Line} (hsec : (hdr, body) ∈ sections input)
    (hp : (process_section hdr body).2.2 = false) (x : Line)
    (hx : x = hdr ∨ x ∈ (process_section hdr body).2.1)
    (hnb : isBlankLine x = false) : x ∈ (transform input).2 := by
  have hbuf : x ∈ (buffers input).2 := by
    rw [buffers_eq input]
    exact List.mem_append.2 (Or.inr (routed_mem_archived _ hdr body hsec hp x hx))
  exact clean_mem_of_not_blank hbuf hnb

/-! ### Counting a header line across the two buffers -/

theorem routed_count_header {h : Line} (hh : h2Mark.isPrefixOf h = true) :
    ∀ secs : List (Line × List Line),
      (∀ pr ∈ secs, ∀ x ∈ pr.2, h2Mark.isPrefixOf x = false) →
      List.count h (routed secs).1 + List.count h (routed secs).2 =
        List.count h (secs.map Prod.fst) := by
  intro secs
  induction secs with
  | nil => simp [routed]
  | cons s t ih =>
    intro hbody
    rcases s with ⟨h', b'⟩
    rw [routed_cons]
    have hrec := ih (fun pr hpr => hbody pr (by simp [hpr]))
    have hnotbucket : ∀ bk : List Line, List.Sublist bk b' → h ∉ bk := by
      intro bk hsub hmem
      have hmb : h ∈ b' := hsub.mem hmem
      have hf := hbody (h', b') (by simp) h hmb
      rw [hf] at hh
      exact absurd hh (by decide)
    by_cases hp : (process_section h' b').2.2
    · rw [if_pos hp]
      have hz := List.count_eq_zero_of_not_mem
        (hnotbucket _ (ps_pending_sublist h' b'))
      simp only [List.count_append, List.count_cons, List.map_cons, hz]
      omega
    · rw [if_neg hp]
      have hz := List.count_eq_zero_of_not_mem
        (hnotbucket _ (ps_archived_sublist h' b'))
      simp only [List.count_append, List.count_cons, List.map_cons, hz]
      omega

theorem buffers_count_header (input : List Line) {h : Line}
    (hh : h2Mark.isPrefixOf h = true) :
    List.count h (buffers input).1 + List.count h (buffers input).2 =
      List.count h input := by
  rw [buffers_eq input, List.count_append, List.count_append]
  have hp0 : List.count h pending_output_init = 0 := by
    refine List.count_eq_zero_of_not_mem ?_
    intro hmem
    have := pending_init_not_h2 h hmem
    rw [this] at hh
    exact absurd hh (by decide)
  have ha0 : List.count h archived_output_init = 0 := by
    refine List.count_eq_zero_of_not_mem ?_
    intro hmem
    have := archived_init_not_h2 h hmem
    rw [this] at hh
    exact absurd hh (by decide)
  have hr := routed_count_header hh (sections input)
    (fun pr hpr => sections_body_not_h2 hpr)
  rw [sections_header_count hh] at hr
  omega

/-! ### Concrete documents used by counterexamples and witnesses -/

/-- A document with one mixed section: one pending and one completed task. -/
def docMixed : List Line := ["## A".data, "- [ ] t".data, "- [x] d".data]

/-- The mixed-section scenario document of the specification. -/
def docScenario : List Line :=
  ["## A".data, "- [ ] todo1".data, "- [x] done1".data, "  detail1".data]

/-- A document whose only pending marker is nested inside a completed task
block. -/
def docNested : List Line := ["## A".data, "- [x] a".data, "  - [ ] b".data]

/-- A document with two sections sharing the same header text. -/
def docDupHeader : List Line :=
  ["## C".data, "just text".data, "## C".data, "- [ ] t".data]

/-- A document with one task-free section. -/
def docPlain : List Line := ["## C".data, "just text".data]

/-! ## Claim theorems -/

/-- C1, counterexample: in the mixed-section document, the completed task
line `- [x] d` is a line of the source (not a preamble line, not a title
line), yet it appears in neither of the two outputs, so it is false that
every source line appears in at least one output. -/
theorem c1_counterexample :
    "- [x] d".data ∈ docMixed ∧
    "- [x] d".data ∉ (transform docMixed).1 ∧
    "- [x] d".data ∉ (transform docMixed).2 := by decide

/-- C1, amended: every section header appears in one of the two outputs, and
every non-blank line of a section body appears in one of the two outputs
unless the section has a pending task and the line sits in the section's
archived bucket (a completed task block), in which case it is dropped.
(Lines before the first `## ` header, `# ` title lines and whitespace-only
lines are outside this statement.) -/
theorem c1_amended (input : List Line) (hdr : Line) (body : List Line)
    (l : Line) (hsec : (hdr, body) ∈ sections input) (hl : l ∈ body)
    (hnb : isBlankLine l = false) :
    (hdr ∈ (transform input).1 ∨ hdr ∈ (transform input).2) ∧
    (l ∈ (transform input).1 ∨ l ∈ (transform input).2 ∨
      ((process_section hdr body).2.2 = true ∧
        l ∈ (process_section hdr body).2.1)) := by
  have hh2 := sections_headers hsec
  have hhnb := h2_not_blank hh2
  constructor
  · by_cases hp : (process_section hdr body).2.2
    · exact Or.inl (section_pending_in_transform hsec hp hdr (Or.inl rfl) hhnb)
    · rw [Bool.not_eq_true] at hp
      exact Or.inr (section_archived_in_transform hsec hp hdr (Or.inl rfl) hhnb)
  · by_cases hp : (process_section hdr body).2.2
    · rcases ps_cover hdr body l hl with hm | hm
      · exact Or.inl (section_pending_in_transform hsec hp l (Or.inr hm) hnb)
      · exact Or.inr (Or.inr ⟨hp, hm⟩)
    · rw [Bool.not_eq_true] at hp
      have harch : l ∈ (process_section hdr body).2.1 := by
        rw [ps_not_hp_archived hdr body hp]
        exact hl
      exact Or.inr (Or.inl
        (section_archived_in_transform hsec hp l (Or.inr harch) hnb))

/-- C1, witness: the amended statement evaluated on the mixed-section
document at the line `- [ ] t`. -/
theorem c1_amended_witness :
    ("## A".data ∈ (transform docMixed).1 ∨
      "## A".data ∈ (transform docMixed).2) ∧
    ("- [ ] t".data ∈ (transform docMixed).1 ∨
      "- [ ] t".data ∈ (transform docMixed).2 ∨
      ((process_section "## A".data ["- [ ] t".data, "- [x] d".data]).2.2 = true ∧
        "- [ ] t".data ∈
          (process_section "## A".data ["- [ ] t".data, "- [x] d".data]).2.1)) :=
  c1_amended docMixed "## A".data ["- [ ] t".data, "- [x] d".data] "- [ ] t".data
    (by decide) (by decide) (by decide)

/-- C2, counterexample: in the mixed-section document the archive output has
zero `- [x]` markers and the pending output has one `- [ ]` marker, while the
source has two task markers; the claimed equality fails. -/
theorem c2_counterexample :
    ¬ (countCompleted (transform docMixed).2 + countPending (transform docMixed).1 =
        countCompleted docMixed + countPending docMixed) := by decide

/-- C2, amended: the count of `- [x]` markers in the archive output plus the
count of `- [ ]` markers in the pending output is at most (instead of equal
to) the total count of task markers in the source; completed blocks of
sections with pending tasks are dropped, which can make the sum strictly
smaller. -/
theorem c2_amended (input : List Line) :
    countCompleted (transform input).2 + countPending (transform input).1 ≤
      countCompleted input + countPending input := by
  have hX := transform_countQ_le (fun l => xMark.isPrefixOf (strip l))
    (by decide) input
  have hO := transform_countQ_le (fun l => oMark.isPrefixOf (strip l))
    (by decide) input
  have e1 : countQ (fun l => xMark.isPrefixOf (strip l)) pending_output_init = 0 := by
    decide
  have e2 : countQ (fun l => xMark.isPrefixOf (strip l)) archived_output_init = 0 := by
    decide
  have e3 : countQ (fun l => oMark.isPrefixOf (strip l)) pending_output_init = 0 := by
    decide
  have e4 : countQ (fun l => oMark.isPrefixOf (strip l)) archived_output_init = 0 := by
    decide
  rw [e1, e2] at hX
  rw [e3, e4] at hO
  have b1 : countCompleted (transform input).2 =
      countQ (fun l => xMark.isPrefixOf (strip l)) (transform input).2 := rfl
  have b2 : countPending (transform input).1 =
      countQ (fun l => oMark.isPrefixOf (strip l)) (transform input).1 := rfl
  have b3 : countCompleted input =
      countQ (fun l => xMark.isPrefixOf (strip l)) input := rfl
  have b4 : countPending input =
      countQ (fun l => oMark.isPrefixOf (strip l)) input := rfl
  rw [b1, b2, b3, b4]
  omega

/-- C3, counterexample: in the scenario document the completed task line
`- [x] done1` does not go to the pending output (nor anywhere): the claim
that the whole section, completed task included, goes to the pending output
is false. -/
theorem c3_counterexample :
    "- [x] done1".data ∉ (transform docScenario).1 ∧
    "- [x] done1".data ∉ (transform docScenario).2 := by decide

/-- C3, amended: pending output contains `## A` and `- [ ] todo1`; the
archive output does not contain `## A`; but the completed task `- [x] done1`
and its detail line are deleted — they appear in neither output. -/
theorem c3_amended :
    "## A".data ∈ (transform docScenario).1 ∧
    "- [ ] todo1".data ∈ (transform docScenario).1 ∧
    "## A".data ∉ (transform docScenario).2 ∧
    "- [x] done1".data ∉ (transform docScenario).1 ∧
    "- [x] done1".data ∉ (transform docScenario).2 ∧
    "  detail1".data ∉ (transform docScenario).1 ∧
    "  detail1".data ∉ (transform docScenario).2 := by decide

/-- C4, counterexample: the archive output of the nested document contains
the line `  - [ ] b`, whose stripped form begins with `- [ ]`; the archive
output is not free of `- [ ]` markers. -/
theorem c4_counterexample :
    "  - [ ] b".data ∈ (transform docNested).2 ∧
    oMark.isPrefixOf (strip "  - [ ] b".data) = true := by decide

/-- C4, amended: no top-level task block of the pending output is completed
and no top-level task block of the archive output is pending (markers of the
opposite kind can still occur nested as detail lines inside blocks). -/
theorem c4_amended (input : List Line) :
    ((scanHeads (transform input).1).all (fun h => !completedMarker h) = true) ∧
    ((scanHeads (transform input).2).all (fun h => !pendingMarker h) = true) := by
  refine ⟨List.all_eq_true.2 ?_, List.all_eq_true.2 ?_⟩
  · intro h hh
    rw [transform_pending_heads input h hh]
    rfl
  · intro h hh
    rw [transform_archived_heads input h hh]
    rfl

/-- C5: for a `## `-prefixed line, the number of its occurrences in the
pending buffer plus the number in the archive buffer equals the number of its
occurrences in the input — each header occurrence is appended to exactly one
buffer — and each section's header goes to the pending buffer when its
`has_pending` flag is true, otherwise to the archive buffer. -/
theorem c5_theorem (input : List Line) (h hdr : Line) (body : List Line)
    (hh : h2Mark.isPrefixOf h = true)
    (hsec : (hdr, body) ∈ sections input) :
    (List.count h (buffers input).1 + List.count h (buffers input).2 =
      List.count h input) ∧
    hdr ∈ (if (process_section hdr body).2.2 then (buffers input).1
           else (buffers input).2) := by
  refine ⟨buffers_count_header input hh, ?_⟩
  by_cases hp : (process_section hdr body).2.2
  · rw [if_pos hp, buffers_eq input]
    exact List.mem_append.2
      (Or.inr (routed_mem_pending _ hdr body hsec hp hdr (Or.inl rfl)))
  · rw [if_neg hp, buffers_eq input]
    rw [Bool.not_eq_true] at hp
    exact List.mem_append.2
      (Or.inr (routed_mem_archived _ hdr body hsec hp hdr (Or.inl rfl)))

/-- C5, witness: the count conservation and routing direction evaluated on
the mixed-section document at its one header `## A`. -/
theorem c5_witness :
    (List.count "## A".data (buffers docMixed).1 +
       List.count "## A".data (buffers docMixed).2 =
      List.count "## A".data docMixed) ∧
    "## A".data ∈
      (if (process_section "## A".data ["- [ ] t".data, "- [x] d".data]).2.2
       then (buffers docMixed).1 else (buffers docMixed).2) :=
  c5_theorem docMixed "## A".data "## A".data ["- [ ] t".data, "- [x] d".data]
    (by decide) (by decide)

/-- C6: the block collected below a task line is the maximal run of lines
that are blank or indented strictly deeper than the task line (the task line
itself heads the block), and the cursor resumes at the first excluded line. -/
theorem c6_theorem (l : Line) (rest : List Line) :
    (l :: (collectBlock (get_indent l) rest).1 =
      l :: rest.takeWhile (isDetail (get_indent l))) ∧
    ((collectBlock (get_indent l) rest).2 =
      rest.dropWhile (isDetail (get_indent l))) := by
  rw [collectBlock_eq_span]
  exact ⟨rfl, rfl⟩

/-- C7: neither output of the transform contains two consecutive blank
lines. -/
theorem c7_theorem (input : List Line) :
    noTwoBlank (transform input).1 = true ∧
    noTwoBlank (transform input).2 = true :=
  ⟨clean_noTwoBlank _, clean_noTwoBlank _⟩

/-- C8: the classifier is total and returns `is_task` true exactly when the
stripped line begins with `- [x]` or `- [ ]` (case-sensitive, exact bracket
content), and `is_completed` true exactly when it begins with `- [x]`; any
other line yields `(false, false)`. -/
theorem c8_theorem (l : Line) :
    is_task_line l =
      (xMark.isPrefixOf (strip l) || oMark.isPrefixOf (strip l),
       xMark.isPrefixOf (strip l)) := by
  unfold is_task_line
  by_cases hx : xMark.isPrefixOf (strip l) = true
  · rw [if_pos hx, hx]
    simp
  · rw [if_neg hx]
    rw [Bool.not_eq_true] at hx
    by_cases ho : oMark.isPrefixOf (strip l) = true
    · rw [if_pos ho, hx, ho]
      rfl
    · rw [if_neg ho]
      rw [Bool.not_eq_true] at ho
      rw [hx, ho]
      rfl

/-- C9, counterexample: with two sections sharing the header text `## C`, the
first section is task-free, yet the pending output does contain `## C`
(contributed by the second, pending, section) — the claim's last clause
fails. -/
theorem c9_counterexample :
    (("## C".data, ["just text".data]) ∈ sections docDupHeader) ∧
    ((is_task_line "just text".data).1 = false) ∧
    "## C".data ∈ (transform docDupHeader).1 := by decide

/-- C9, amended: a task-free section is unconditionally routed to the
archive output — its header and every non-blank body line appear there — and,
provided its header text occurs only once in the document, the pending output
does not contain that header. -/
theorem c9_amended (input : List Line) (hdr : Line) (body : List Line)
    (l : Line) (hsec : (hdr, body) ∈ sections input)
    (hnotask : ∀ x ∈ body, (is_task_line x).1 = false) :
    hdr ∈ (transform input).2 ∧
    (l ∈ body → isBlankLine l = false → l ∈ (transform input).2) ∧
    (List.count hdr input = 1 → hdr ∉ (transform input).1) := by
  have hh : h2Mark.isPrefixOf hdr = true := sections_headers hsec
  have hps := ps_no_task hdr body hnotask
  have hp : (process_section hdr body).2.2 = false := by rw [hps]
  refine ⟨section_archived_in_transform hsec hp hdr (Or.inl rfl) (h2_not_blank hh),
    ?_, ?_⟩
  · intro hl hnb
    refine section_archived_in_transform hsec hp l (Or.inr ?_) hnb
    rw [hps]
    exact hl
  · intro huniq
    have hc := buffers_count_header input hh
    rw [huniq] at hc
    have hmem2 : hdr ∈ (buffers input).2 := by
      rw [buffers_eq input]
      exact List.mem_append.2
        (Or.inr (routed_mem_archived _ hdr body hsec hp hdr (Or.inl rfl)))
    have hc2 : 0 < List.count hdr (buffers input).2 := List.count_pos_iff.2 hmem2
    have hc1 : List.count hdr (buffers input).1 = 0 := by omega
    intro hmem1
    have hmb : hdr ∈ (buffers input).1 := (clean_sublist (buffers input).1).mem hmem1
    rw [List.count_eq_zero] at hc1
    exact hc1 hmb

/-- C9, witness: the amended statement evaluated on the single task-free
section document, where the header occurs once. -/
theorem c9_amended_witness :
    "## C".data ∈ (transform docPlain).2 ∧
    ("just text".data ∈ ["just text".data] →
      isBlankLine "just text".data = false →
      "just text".data ∈ (transform docPlain).2) ∧
    (List.count "## C".data docPlain = 1 →
      "## C".data ∉ (transform docPlain).1) :=
  c9_amended docPlain "## C".data ["just text".data] "just text".data
    (by decide) (by decide)

/-- C10: if every pending marker of a section body is shielded — it occurs
only as a detail line (blank or strictly deeper) of a completed task block —
then the section's `has_pending` flag is false and the whole section,
including those `- [ ]` lines, is routed to the archive output. -/
theorem c10_theorem (input : List Line) (hdr : Line) (body : List Line)
    (l : Line) (hsec : (hdr, body) ∈ sections input)
    (hsh : Shielded pendingMarker body)
    (hl : l ∈ body) (hnb : isBlankLine l = false) :
    (process_section hdr body).2.2 = false ∧
    hdr ∈ (transform input).2 ∧ l ∈ (transform input).2 := by
  have hp : (process_section hdr body).2.2 = false := by
    by_contra hne
    rw [Bool.not_eq_false, ps_hp_eq_scanHeads, List.any_eq_true] at hne
    obtain ⟨x, hx, hpx⟩ := hne
    rw [shielded_scanHeads hsh x hx] at hpx
    exact absurd hpx (by decide)
  refine ⟨hp, section_archived_in_transform hsec hp hdr (Or.inl rfl)
    (h2_not_blank (sections_headers hsec)), ?_⟩
  refine section_archived_in_transform hsec hp l (Or.inr ?_) hnb
  rw [ps_not_hp_archived hdr body hp]
  exact hl

/-- C10, witness: the nested document, whose only `- [ ]` line is a detail
of a completed block, is archived wholesale. -/
theorem c10_witness :
    (process_section "## A".data ["- [x] a".data, "  - [ ] b".data]).2.2 = false ∧
    "## A".data ∈ (transform docNested).2 ∧
    "  - [ ] b".data ∈ (transform docNested).2 :=
  c10_theorem docNested "## A".data ["- [x] a".data, "  - [ ] b".data]
    "  - [ ] b".data (by decide)
    (@Shielded.block pendingMarker "- [x] a".data ["  - [ ] b".data] []
      (by decide) (by decide) (by decide) Shielded.nil)
    (by decide) (by decide)
